import Mathlib

/-!
# A shallow embedding of the `piecetable` crate (`src/lib.rs`)

Strings are modelled as `List Char` (one list element per character;
`usize` byte indexing in the Rust code coincides with character indexing
for the character-level view the spec uses).  `usize` arithmetic is
`Nat`.  Every place where the Rust code can panic — `Vec`/slice indexing
out of bounds, `Vec::remove`/`Vec::insert` out of bounds, and
debug-mode subtraction overflow on `usize` — is modelled by `Option`:
`none` is a panic/abort, `some` a normal return.

Field, function and variable names follow `src/lib.rs` (including the
`split_piece_index_and_lenght` spelling).
-/

/-- `enum BufChoice { ReadOnly, AppendOnly }` -/
inductive BufChoice
  | readOnly
  | appendOnly
deriving DecidableEq, Repr

/-- `struct Piece { buffer: BufChoice, start: usize, length: usize }` -/
structure Piece where
  buffer : BufChoice
  start : Nat
  length : Nat
deriving DecidableEq, Repr

/-- `enum ReadBuffer { Str(String), File(PathBuf) }`.  For the `File`
variant the file's content is not stored in the structure; it is passed
to the operations that read it (`display_result`, `save_file`). -/
inductive ReadBuffer
  | str (buf : List Char)
  | file
deriving DecidableEq, Repr

/-- `struct PieceTable { read_buf: ReadBuffer, append_buf: String, pieces: Vec<Piece> }` -/
structure PieceTable where
  read_buf : ReadBuffer
  append_buf : List Char
  pieces : List Piece
deriving DecidableEq, Repr

namespace PieceTable

/-- `PieceTable::from_str`. -/
def fromStr (buf : List Char) : PieceTable :=
  { read_buf := ReadBuffer.str buf
    append_buf := []
    pieces := [{ buffer := BufChoice.readOnly, start := 0, length := buf.length }] }

/-- `PieceTable::from_file` on the success path: the structure records
only the path; the piece length is the file's size at load time. -/
def fromFile (fileSize : Nat) : PieceTable :=
  { read_buf := ReadBuffer.file
    append_buf := []
    pieces := [{ buffer := BufChoice.readOnly, start := 0, length := fileSize }] }

/-- `&buf[start..start + length]`: `none` models the slice-out-of-bounds
panic. -/
def sliceOf (buf : List Char) (start length : Nat) : Option (List Char) :=
  if start + length ≤ buf.length then some ((buf.drop start).take length) else none

/-- The loop of `PieceTable::connect_pieces`, written as recursion over
the piece list; the concatenation is associated to the right, which
yields the same string as the Rust left-to-right accumulation. -/
def connectList (read_buf ap : List Char) : List Piece → Option (List Char)
  | [] => some []
  | p :: ps =>
    let buf := match p.buffer with
      | BufChoice.readOnly => read_buf
      | BufChoice.appendOnly => ap
    match sliceOf buf p.start p.length, connectList read_buf ap ps with
    | some s, some rest => some (s ++ rest)
    | _, _ => none

/-- `PieceTable::connect_pieces`. -/
def connectPieces (pt : PieceTable) (read_buf : List Char) : Option (List Char) :=
  connectList read_buf pt.append_buf pt.pieces

/-- `PieceTable::display_result`; `fileContent` is what
`fs::read_to_string` returns when the read buffer is a file (successful
read). -/
def displayResult (pt : PieceTable) (fileContent : List Char) : Option (List Char) :=
  match pt.read_buf with
  | ReadBuffer.str buf => connectPieces pt buf
  | ReadBuffer.file => connectPieces pt fileContent

/-- The loop of `find_piece_at_position`: `counter` is the running total
of piece lengths already passed; the result counts how many pieces were
passed (so an exhausted list yields `pieces.len()`). -/
def findAux : List Piece → Nat → Nat → Nat
  | [], _, _ => 0
  | p :: ps, pos, counter =>
    if pos < counter + p.length then 0 else findAux ps pos (counter + p.length) + 1

/-- `PieceTable::find_piece_at_position`. -/
def findPieceAtPosition (pt : PieceTable) (position : Nat) : Nat :=
  if position = 0 then 0 else findAux pt.pieces position 0

/-- The loop of `position_is_at_border`. -/
def borderAux : List Piece → Nat → Nat → Bool
  | [], _, _ => false
  | p :: ps, pos, counter =>
    if pos = counter + p.length then true else borderAux ps pos (counter + p.length)

/-- `PieceTable::position_is_at_border`. -/
def positionIsAtBorder (pt : PieceTable) (position : Nat) : Bool :=
  if position = 0 then true else borderAux pt.pieces position 0

/-- `Vec::insert(i, x)`; every call site guarantees `i ≤ l.length`, so
the out-of-bounds panic of `Vec::insert` cannot fire. -/
def vecInsert (l : List Piece) (i : Nat) (x : Piece) : List Piece :=
  l.take i ++ x :: l.drop i

/-- Sum of piece lengths of a list (`pieces.iter().map(|x| x.length).sum()`). -/
def sumLens (ps : List Piece) : Nat := (ps.map Piece.length).sum

/-- `PieceTable::_total_length`. -/
def totalLength (pt : PieceTable) : Nat := sumLens pt.pieces

/-- `PieceTable::divide_piece`.  `none` models the `Vec::remove`
out-of-bounds panic when `piece_index ≥ pieces.len()`.  Call sites pass
`split_length ≤ piece.length`, so the `piece.length - split_length`
subtraction matches `usize` exactly. -/
def dividePiece (pt : PieceTable) (pieceIndex splitLength : Nat) : Option PieceTable :=
  match pt.pieces.get? pieceIndex with
  | none => none
  | some piece =>
    let ps := pt.pieces.eraseIdx pieceIndex
    let ps := vecInsert ps pieceIndex
      { buffer := piece.buffer, start := piece.start, length := splitLength }
    let ps := vecInsert ps (pieceIndex + 1)
      { buffer := piece.buffer, start := piece.start + splitLength
        length := piece.length - splitLength }
    some { pt with pieces := ps }

/-- The border / mid-piece part of `PieceTable::insert` (everything
after the coalescing fast path has been ruled out). -/
def insertRest (pt : PieceTable) (buf : List Char) (index : Nat) : Option PieceTable :=
  let appendBufLen := pt.append_buf.length
  let length := buf.length
  let idx := findPieceAtPosition pt index
  let isBorder := positionIsAtBorder pt index
  if isBorder then
    some { pt with
           pieces := vecInsert pt.pieces idx
             { buffer := BufChoice.appendOnly, start := appendBufLen, length := length }
           append_buf := pt.append_buf ++ buf }
  else
    let counter := sumLens (pt.pieces.take idx)
    let splitIndex := index - counter
    match dividePiece pt idx splitIndex with
    | none => none
    | some pt2 =>
      some { pt2 with
             pieces := vecInsert pt2.pieces (idx + 1)
               { buffer := BufChoice.appendOnly, start := appendBufLen, length := length }
             append_buf := pt2.append_buf ++ buf }

/-- `PieceTable::insert`.  The outer `match` is the fast-path guard
`is_border && idx != 0`: when it holds, `pieces[idx - 1]` is in bounds
(`idx ≤ pieces.len()` always holds for `find_piece_at_position`), so the
`get?` is `some` and the Rust indexing cannot panic. -/
def insert (pt : PieceTable) (buf : List Char) (index : Nat) : Option PieceTable :=
  let appendBufLen := pt.append_buf.length
  let length := buf.length
  let idx := findPieceAtPosition pt index
  let isBorder := positionIsAtBorder pt index
  match (if isBorder ∧ idx ≠ 0 then pt.pieces.get? (idx - 1) else none) with
  | some prev =>
    if prev.buffer = BufChoice.appendOnly ∧ prev.start + prev.length = appendBufLen then
      let prev' : Piece := { prev with length := prev.length + length }
      some { pt with
             append_buf := pt.append_buf ++ buf
             pieces := pt.pieces.set (idx - 1) prev' }
    else insertRest pt buf index
  | none => insertRest pt buf index

/-- The loop of `split_piece_index_and_lenght`, `none` meaning the loop
finished without returning. -/
def splitLoop : List Piece → Nat → Nat → Option (Nat × Nat)
  | [], _, _ => none
  | p :: ps, idx, counter =>
    if idx < counter + p.length then some (0, idx - counter)
    else (splitLoop ps idx (counter + p.length)).map (fun r => (r.1 + 1, r.2))

/-- `PieceTable::split_piece_index_and_lenght` (spelling as in the
source).  In the fall-through case the Rust code computes
`self.pieces.len() - 1` and `last.length - 1` on `usize`; with no pieces
or a zero-length last piece these subtractions overflow, which is the
panic modelled by `none`. -/
def splitPieceIndexAndLenght (pt : PieceTable) (splitIndex : Nat) : Option (Nat × Nat) :=
  match splitLoop pt.pieces splitIndex 0 with
  | some r => some r
  | none =>
    match pt.pieces.getLast? with
    | none => none
    | some last =>
      if last.length = 0 then none
      else some (pt.pieces.length - 1, last.length - 1)

/-- `PieceTable::delete_and_join`.  The final `none` models the
`self.pieces[piece_index]` out-of-bounds panic: after the removal,
`piece_index` can equal the new `pieces.len()` without being caught by
the `piece_index == self.pieces.len() - 1` guard. -/
def deleteAndJoin (pt : PieceTable) (pieceIndex : Nat) : Option PieceTable :=
  let ps := pt.pieces.eraseIdx pieceIndex
  if pieceIndex = 0 ∨ pieceIndex = ps.length - 1 then
    some { pt with pieces := ps }
  else
    match ps.get? (pieceIndex - 1), ps.get? pieceIndex with
    | some prev, some next =>
      if prev.buffer = next.buffer ∧ prev.start + prev.length = next.start then
        let merged : Piece := { prev with length := prev.length + next.length }
        some { pt with pieces := (ps.set (pieceIndex - 1) merged).eraseIdx pieceIndex }
      else some { pt with pieces := ps }
    | _, _ => none

/-- `PieceTable::delete_char`. -/
def deleteChar (pt : PieceTable) (charIndex : Nat) : Option PieceTable :=
  match splitPieceIndexAndLenght pt charIndex with
  | none => none
  | some (pieceIndex, indexInPiece) =>
    match pt.pieces.get? pieceIndex with
    | none => none
    | some piece =>
      if indexInPiece = 0 then
        let piece' : Piece := { piece with start := piece.start + 1, length := piece.length - 1 }
        let pt' := { pt with pieces := pt.pieces.set pieceIndex piece' }
        if piece'.length = 0 then deleteAndJoin pt' pieceIndex else some pt'
      else if indexInPiece = piece.length - 1 then
        let piece' : Piece := { piece with length := piece.length - 1 }
        some { pt with pieces := pt.pieces.set pieceIndex piece' }
      else
        match dividePiece pt pieceIndex indexInPiece with
        | none => none
        | some pt2 =>
          match pt2.pieces.get? (pieceIndex + 1) with
          | none => none
          | some next =>
            let next' : Piece := { next with start := next.start + 1, length := next.length - 1 }
            some { pt2 with pieces := pt2.pieces.set (pieceIndex + 1) next' }

/-- `PieceTable::save_file` on a successful write: `fileContent` is the
current content of the backing file; the function writes
`connect_pieces(fileContent)` back to the file and resets the piece
sequence to a single read-only piece over the new content.  The written
length reported by the file metadata is the length of the written text.
`none` covers `read_buf` not being a file (the `Err` branch) and the
panics/IO failures inside `save`.  Note the Rust code does not touch
`append_buf`. -/
def saveFile (pt : PieceTable) (fileContent : List Char) : Option (PieceTable × List Char) :=
  match pt.read_buf with
  | ReadBuffer.file =>
    match connectPieces pt fileContent with
    | some newContent =>
      some ({ pt with pieces :=
                [{ buffer := BufChoice.readOnly, start := 0, length := newContent.length }] },
            newContent)
    | none => none
  | ReadBuffer.str _ => none

/-- Sequential typing: insert the characters of `cs` one at a time, each
at the cursor position following the previous insertion. -/
def insertSeq : PieceTable → Nat → List Char → Option PieceTable
  | pt, _, [] => some pt
  | pt, pos, c :: cs =>
    match PieceTable.insert pt [c] pos with
    | some pt' => insertSeq pt' (pos + 1) cs
    | none => none

/-- States reachable from `from_str T` by valid `insert` / `delete_char`
calls (non-empty inserted text, in-range index) that return normally. -/
inductive Reach (T : List Char) : PieceTable → Prop
  | base : Reach T (fromStr T)
  | ins {pt pt' : PieceTable} {s : List Char} {i : Nat} :
      Reach T pt → s ≠ [] → i ≤ totalLength pt →
      PieceTable.insert pt s i = some pt' → Reach T pt'
  | del {pt pt' : PieceTable} {i : Nat} :
      Reach T pt → i < totalLength pt →
      deleteChar pt i = some pt' → Reach T pt'

/-- The bound that the buffer a piece points into imposes on the piece's
span. -/
def bufBound (T : List Char) (pt : PieceTable) (p : Piece) : Nat :=
  match p.buffer with
  | BufChoice.readOnly => T.length
  | BufChoice.appendOnly => pt.append_buf.length

/-- Every piece's half-open span lies inside the buffer it references,
and the table is backed by the string `T`. -/
def Inbounds (T : List Char) (pt : PieceTable) : Prop :=
  pt.read_buf = ReadBuffer.str T ∧ ∀ p ∈ pt.pieces, p.start + p.length ≤ bufBound T pt p

/-- The shapes a table takes while typing single characters at a running
cursor, starting from `from_str` of a text of length `n`: `q` is the
position of the next insertion, `m` the number of characters typed so
far (= the append-buffer length). -/
def TypingState (n q : Nat) (pt : PieceTable) : Prop :=
  ∃ m, 1 ≤ m ∧ pt.append_buf.length = m ∧
    ( (n = 0 ∧ m = 1 ∧ q = 1 ∧
        pt.pieces = [⟨BufChoice.appendOnly, 0, 1⟩, ⟨BufChoice.readOnly, 0, 0⟩])
    ∨ (n = 0 ∧ ∃ k, 1 ≤ k ∧ m = 1 + k ∧ q = 1 + k ∧
        pt.pieces = [⟨BufChoice.appendOnly, 0, 1⟩, ⟨BufChoice.readOnly, 0, 0⟩,
                     ⟨BufChoice.appendOnly, 1, k⟩])
    ∨ (1 ≤ n ∧ q = m ∧
        pt.pieces = [⟨BufChoice.appendOnly, 0, m⟩, ⟨BufChoice.readOnly, 0, n⟩])
    ∨ (1 ≤ n ∧ q = n + m ∧
        pt.pieces = [⟨BufChoice.readOnly, 0, n⟩, ⟨BufChoice.appendOnly, 0, m⟩])
    ∨ (∃ p, 0 < p ∧ p < n ∧ q = p + m ∧
        pt.pieces = [⟨BufChoice.readOnly, 0, p⟩, ⟨BufChoice.appendOnly, 0, m⟩,
                     ⟨BufChoice.readOnly, p, n - p⟩]))

end PieceTable

open PieceTable

/-- Claim C9: for every initial text `T`, materializing (`display_result`)
immediately after constructing the table from `T` returns exactly `T`
(for any file content, which a string-backed table never reads). -/
theorem c9_display_after_load (T fc : List Char) :
    displayResult (fromStr T) fc = some T := by
  simp [displayResult, fromStr, connectPieces, connectList, sliceOf]

/-- Claim C8, counterexample: constructing from the empty source does
not produce zero pieces; it produces one piece, and that piece has
`length = 0`. -/
theorem c8_counterexample :
    (fromStr ([] : List Char)).pieces =
      [{ buffer := BufChoice.readOnly, start := 0, length := 0 }] ∧
    (fromStr ([] : List Char)).pieces.length ≠ 0 := by
  constructor
  · rfl
  · decide

/-- Claim C3, counterexample: `delete_char(5)` on the two-character table
`"ab"` does not fail; it is silently clamped to the last character, the
piece sequence is modified, and the text becomes `"a"`.  Moreover
`insert("x", 5)` on the same table is a fatal out-of-bounds fault
(`Vec::remove` past the end inside `divide_piece`), not a recoverable
error. -/
theorem c3_counterexample :
    deleteChar (fromStr ['a', 'b']) 5 =
      some { read_buf := ReadBuffer.str ['a', 'b'], append_buf := [],
             pieces := [{ buffer := BufChoice.readOnly, start := 0, length := 1 }] } ∧
    displayResult { read_buf := ReadBuffer.str ['a', 'b'], append_buf := [],
                    pieces := [{ buffer := BufChoice.readOnly, start := 0, length := 1 }] } [] =
      some ['a'] ∧
    PieceTable.insert (fromStr ['a', 'b']) ['x'] 5 = none := by
  refine ⟨by decide, by decide, by decide⟩

/-- Claim C4, evaluation at the failing input: after
`from_str("abc"); delete_char(1)` the table is
`[{ReadOnly, 0, 1}, {ReadOnly, 2, 1}]` with total length 2, and the
in-range call `delete_char(1)` — which empties the length-1 piece at the
END of the sequence — panics (`none`): `delete_and_join` removes the
piece and then indexes `pieces[1]` in a one-element vector, because its
guard compares against `pieces.len() - 1` after the removal. -/
theorem c4_code_bug_eval :
    deleteChar (fromStr ['a', 'b', 'c']) 1 =
      some { read_buf := ReadBuffer.str ['a', 'b', 'c'], append_buf := [],
             pieces := [{ buffer := BufChoice.readOnly, start := 0, length := 1 },
                        { buffer := BufChoice.readOnly, start := 2, length := 1 }] } ∧
    totalLength { read_buf := ReadBuffer.str ['a', 'b', 'c'], append_buf := [],
                  pieces := [{ buffer := BufChoice.readOnly, start := 0, length := 1 },
                             { buffer := BufChoice.readOnly, start := 2, length := 1 }] } = 2 ∧
    deleteChar { read_buf := ReadBuffer.str ['a', 'b', 'c'], append_buf := [],
                 pieces := [{ buffer := BufChoice.readOnly, start := 0, length := 1 },
                            { buffer := BufChoice.readOnly, start := 2, length := 1 }] } 1 =
      none := by
  refine ⟨by decide, by decide, by decide⟩

/-- Claim C6, evaluation at the failing input: `from_str("ab")`,
`insert("x", 1)`, then `delete_char(1)` empties and removes the inserted
piece.  Its two former neighbors `{ReadOnly, 0, 1}` and `{ReadOnly, 1, 1}`
reference the same buffer with contiguous spans, yet the result keeps
both pieces unmerged: the post-removal guard
`piece_index == pieces.len() - 1` wrongly treats this case as having no
right neighbor and skips the merge. -/
theorem c6_code_bug_eval :
    PieceTable.insert (fromStr ['a', 'b']) ['x'] 1 =
      some { read_buf := ReadBuffer.str ['a', 'b'], append_buf := ['x'],
             pieces := [{ buffer := BufChoice.readOnly, start := 0, length := 1 },
                        { buffer := BufChoice.appendOnly, start := 0, length := 1 },
                        { buffer := BufChoice.readOnly, start := 1, length := 1 }] } ∧
    deleteChar { read_buf := ReadBuffer.str ['a', 'b'], append_buf := ['x'],
                 pieces := [{ buffer := BufChoice.readOnly, start := 0, length := 1 },
                            { buffer := BufChoice.appendOnly, start := 0, length := 1 },
                            { buffer := BufChoice.readOnly, start := 1, length := 1 }] } 1 =
      some { read_buf := ReadBuffer.str ['a', 'b'], append_buf := ['x'],
             pieces := [{ buffer := BufChoice.readOnly, start := 0, length := 1 },
                        { buffer := BufChoice.readOnly, start := 1, length := 1 }] } ∧
    ({ buffer := BufChoice.readOnly, start := 0, length := 1 } : Piece).start +
        ({ buffer := BufChoice.readOnly, start := 0, length := 1 } : Piece).length =
      ({ buffer := BufChoice.readOnly, start := 1, length := 1 } : Piece).start := by
  refine ⟨by decide, by decide, by decide⟩

/-- Claim C7, counterexample to the stated mechanism: on the empty
initial text, the SECOND single-character insertion at the sequentially
next cursor position does not extend the existing append piece — it
creates a new piece (the piece count grows from 2 to 3), because the
piece preceding the insertion point is the zero-length read-only piece
left over from `from_str("")`. -/
theorem c7_counterexample :
    PieceTable.insert (fromStr []) ['a'] 0 =
      some { read_buf := ReadBuffer.str [], append_buf := ['a'],
             pieces := [{ buffer := BufChoice.appendOnly, start := 0, length := 1 },
                        { buffer := BufChoice.readOnly, start := 0, length := 0 }] } ∧
    PieceTable.insert { read_buf := ReadBuffer.str [], append_buf := ['a'],
                        pieces := [{ buffer := BufChoice.appendOnly, start := 0, length := 1 },
                                   { buffer := BufChoice.readOnly, start := 0, length := 0 }] }
        ['b'] 1 =
      some { read_buf := ReadBuffer.str [], append_buf := ['a', 'b'],
             pieces := [{ buffer := BufChoice.appendOnly, start := 0, length := 1 },
                        { buffer := BufChoice.readOnly, start := 0, length := 0 },
                        { buffer := BufChoice.appendOnly, start := 1, length := 1 }] } := by
  refine ⟨by decide, by decide⟩

/-- Claim C5, counterexample: a file-backed table (file content `"ab"`)
after `insert("x", 0)` has append buffer `"x"`; a successful `save_file`
resets the piece sequence to one piece over the new content `"xab"` but
does NOT clear the append buffer — it is still `"x"` afterwards. -/
theorem c5_counterexample :
    PieceTable.insert (fromFile 2) ['x'] 0 =
      some { read_buf := ReadBuffer.file, append_buf := ['x'],
             pieces := [{ buffer := BufChoice.appendOnly, start := 0, length := 1 },
                        { buffer := BufChoice.readOnly, start := 0, length := 2 }] } ∧
    saveFile { read_buf := ReadBuffer.file, append_buf := ['x'],
               pieces := [{ buffer := BufChoice.appendOnly, start := 0, length := 1 },
                          { buffer := BufChoice.readOnly, start := 0, length := 2 }] }
        ['a', 'b'] =
      some ({ read_buf := ReadBuffer.file, append_buf := ['x'],
              pieces := [{ buffer := BufChoice.readOnly, start := 0, length := 3 }] },
            ['x', 'a', 'b']) ∧
    ({ read_buf := ReadBuffer.file, append_buf := ['x'],
       pieces := [{ buffer := BufChoice.readOnly, start := 0, length := 3 }] }
        : PieceTable).append_buf ≠ [] := by
  refine ⟨by decide, by decide, by decide⟩

/-- Claim C1: for every initial text `T`, every `i ∈ [0, |T|]` and every
non-empty `s`, `insert(s, i)` on the freshly loaded table succeeds and
materializing yields `T[0..i] ++ s ++ T[i..]`. -/
theorem c1_insert_correct (T s : List Char) (i : Nat) (hi : i ≤ T.length) (_hs : s ≠ []) :
    ∃ pt', PieceTable.insert (fromStr T) s i = some pt' ∧
      displayResult pt' [] = some (T.take i ++ s ++ T.drop i) := by
  rcases Nat.eq_zero_or_pos i with h0 | hpos
  · subst h0
    refine ⟨{ read_buf := ReadBuffer.str T, append_buf := s,
              pieces := [{ buffer := BufChoice.appendOnly, start := 0, length := s.length },
                         { buffer := BufChoice.readOnly, start := 0, length := T.length }] },
            ?_, ?_⟩
    · simp [PieceTable.insert, insertRest, findPieceAtPosition, positionIsAtBorder,
            vecInsert, fromStr]
    · simp [displayResult, connectPieces, connectList, sliceOf]
  · have hne : i ≠ 0 := Nat.pos_iff_ne_zero.mp hpos
    rcases eq_or_lt_of_le hi with heq | hlt
    · subst heq
      refine ⟨{ read_buf := ReadBuffer.str T, append_buf := s,
                pieces := [{ buffer := BufChoice.readOnly, start := 0, length := T.length },
                           { buffer := BufChoice.appendOnly, start := 0, length := s.length }] },
              ?_, ?_⟩
      · simp [PieceTable.insert, insertRest, findPieceAtPosition, positionIsAtBorder,
              vecInsert, fromStr, findAux, borderAux, hne]
      · simp [displayResult, connectPieces, connectList, sliceOf]
    · refine ⟨{ read_buf := ReadBuffer.str T, append_buf := s,
                pieces := [{ buffer := BufChoice.readOnly, start := 0, length := i },
                           { buffer := BufChoice.appendOnly, start := 0, length := s.length },
                           { buffer := BufChoice.readOnly, start := i, length := T.length - i }] },
              ?_, ?_⟩
      · simp [PieceTable.insert, insertRest, findPieceAtPosition, positionIsAtBorder,
              vecInsert, fromStr, findAux, borderAux, hne, hlt, Nat.ne_of_lt hlt,
              dividePiece, sumLens, dividePiece]
      · have hdt : (T.drop i).take (T.length - i) = T.drop i := by
          rw [show T.length - i = (T.drop i).length by simp, List.take_length]
        simp [displayResult, connectPieces, connectList, sliceOf, Nat.le_of_lt hlt, hdt,
              Nat.add_sub_cancel' (Nat.le_of_lt hlt)]

/-- Claim C1 witness: the theorem applied at `T = "ab"`, `s = "x"`,
`i = 1`. -/
theorem c1_insert_correct_witness :
    ∃ pt', PieceTable.insert (fromStr ['a', 'b']) ['x'] 1 = some pt' ∧
      displayResult pt' [] =
        some ((['a', 'b'].take 1 : List Char) ++ ['x'] ++ ['a', 'b'].drop 1) :=
  c1_insert_correct ['a', 'b'] ['x'] 1 (by decide) (by decide)

/-- Claim C2: for every text `T` with `|T| > 0` and every `i ∈ [0, |T|)`,
`delete_char(i)` on the freshly loaded table succeeds and materializing
yields `T[0..i] ++ T[i+1..]`. -/
theorem c2_delete_correct (T : List Char) (i : Nat) (hi : i < T.length) :
    ∃ pt', deleteChar (fromStr T) i = some pt' ∧
      displayResult pt' [] = some (T.take i ++ T.drop (i + 1)) := by
  rcases Nat.eq_zero_or_pos i with h0 | hpos
  · subst h0
    rcases Nat.lt_or_ge 1 T.length with h1 | h1
    · -- |T| ≥ 2: shrink the front of the single piece
      refine ⟨{ read_buf := ReadBuffer.str T, append_buf := [],
                pieces := [{ buffer := BufChoice.readOnly, start := 1,
                             length := T.length - 1 }] },
              ?_, ?_⟩
      · simp [deleteChar, splitPieceIndexAndLenght, splitLoop, fromStr, hi,
              Nat.sub_eq_zero_iff_le, Nat.not_le.mpr h1]
      · have hdt : (T.drop 1).take (T.length - 1) = T.drop 1 := by
          rw [show T.length - 1 = (T.drop 1).length by simp, List.take_length]
        simp [displayResult, connectPieces, connectList, sliceOf, hdt,
              Nat.add_sub_cancel' (Nat.le_of_lt h1)]
    · -- |T| = 1: the piece empties and is removed
      have hT1 : T.length = 1 := Nat.le_antisymm h1 hi
      refine ⟨{ read_buf := ReadBuffer.str T, append_buf := [], pieces := [] }, ?_, ?_⟩
      · simp [deleteChar, splitPieceIndexAndLenght, splitLoop, fromStr, hT1,
              deleteAndJoin]
      · simp [displayResult, connectPieces, connectList, hT1,
              List.drop_of_length_le (le_of_eq hT1)]
  · have hne : i ≠ 0 := Nat.pos_iff_ne_zero.mp hpos
    rcases Nat.lt_or_ge (i + 1) T.length with hlast | hlast
    · -- interior: split and shrink the second half
      refine ⟨{ read_buf := ReadBuffer.str T, append_buf := [],
                pieces := [{ buffer := BufChoice.readOnly, start := 0, length := i },
                           { buffer := BufChoice.readOnly, start := i + 1,
                             length := T.length - i - 1 }] },
              ?_, ?_⟩
      · have hne2 : i ≠ T.length - 1 := by omega
        simp [deleteChar, splitPieceIndexAndLenght, splitLoop, fromStr, hi, hne, hne2,
              dividePiece, vecInsert, Nat.sub_sub]
      · have hdt : (T.drop (i + 1)).take (T.length - i - 1) = T.drop (i + 1) := by
          rw [show T.length - i - 1 = (T.drop (i + 1)).length by simp [Nat.sub_sub],
              List.take_length]
        have harith : i + 1 + (T.length - i - 1) ≤ T.length := by omega
        simp [displayResult, connectPieces, connectList, sliceOf, Nat.le_of_lt hi, hdt,
              harith]
    · -- i = |T| - 1 > 0: shrink the back of the single piece
      have hlen : T.length = i + 1 := by omega
      refine ⟨{ read_buf := ReadBuffer.str T, append_buf := [],
                pieces := [{ buffer := BufChoice.readOnly, start := 0, length := i }] },
              ?_, ?_⟩
      · simp [deleteChar, splitPieceIndexAndLenght, splitLoop, fromStr, hi, hne, hlen]
      · simp [displayResult, connectPieces, connectList, sliceOf, Nat.le_of_lt hi,
              List.drop_of_length_le hlast]

/-- Claim C2 witness: the theorem applied at `T = "abc"`, `i = 1`. -/
theorem c2_delete_correct_witness :
    ∃ pt', deleteChar (fromStr ['a', 'b', 'c']) 1 = some pt' ∧
      displayResult pt' [] =
        some ((['a', 'b', 'c'].take 1 : List Char) ++ ['a', 'b', 'c'].drop 2) :=
  c2_delete_correct ['a', 'b', 'c'] 1 (by decide)

/-- Claim C5 (amended): after a successful persist (`save_file` on a
file-backed table) the piece sequence is exactly one read-only piece
spanning the whole new content, and materializing afterwards yields the
same text as materializing before — but the append buffer is NOT
cleared; it is left exactly as it was. -/
theorem c5_amended (pt pt' : PieceTable) (f f' : List Char)
    (h : saveFile pt f = some (pt', f')) :
    pt'.pieces = [{ buffer := BufChoice.readOnly, start := 0, length := f'.length }] ∧
    displayResult pt f = some f' ∧
    displayResult pt' f' = some f' ∧
    pt'.append_buf = pt.append_buf := by
  unfold saveFile at h
  cases hrb : pt.read_buf with
  | str b => rw [hrb] at h; exact absurd h (by simp)
  | file =>
    rw [hrb] at h
    cases hc : connectPieces pt f with
    | none => rw [hc] at h; exact absurd h (by simp)
    | some nc =>
      rw [hc] at h
      rw [Option.some_inj, Prod.mk.injEq] at h
      obtain ⟨hpt', hf'⟩ := h
      subst hf'
      refine ⟨by rw [← hpt'], ?_, ?_, by rw [← hpt']⟩
      · rw [displayResult, hrb, hc]
      · rw [← hpt']
        simp [displayResult, connectPieces, connectList, sliceOf]

/-- Claim C5 witness for the amended statement: the concrete file-backed
table of `c5_counterexample` (file `"ab"`, one `"x"` typed at offset 0),
persisted. -/
theorem c5_amended_witness :
    ({ read_buf := ReadBuffer.file, append_buf := ['x'],
       pieces := [{ buffer := BufChoice.readOnly, start := 0, length := 3 }] }
        : PieceTable).pieces =
      [{ buffer := BufChoice.readOnly, start := 0,
         length := (['x', 'a', 'b'] : List Char).length }] ∧
    displayResult { read_buf := ReadBuffer.file, append_buf := ['x'],
                    pieces := [{ buffer := BufChoice.appendOnly, start := 0, length := 1 },
                               { buffer := BufChoice.readOnly, start := 0, length := 2 }] }
        ['a', 'b'] = some ['x', 'a', 'b'] ∧
    displayResult { read_buf := ReadBuffer.file, append_buf := ['x'],
                    pieces := [{ buffer := BufChoice.readOnly, start := 0, length := 3 }] }
        ['x', 'a', 'b'] = some ['x', 'a', 'b'] ∧
    ({ read_buf := ReadBuffer.file, append_buf := ['x'],
       pieces := [{ buffer := BufChoice.readOnly, start := 0, length := 3 }] }
        : PieceTable).append_buf =
      ({ read_buf := ReadBuffer.file, append_buf := ['x'],
         pieces := [{ buffer := BufChoice.appendOnly, start := 0, length := 1 },
                    { buffer := BufChoice.readOnly, start := 0, length := 2 }] }
        : PieceTable).append_buf :=
  c5_amended
    { read_buf := ReadBuffer.file, append_buf := ['x'],
      pieces := [{ buffer := BufChoice.appendOnly, start := 0, length := 1 },
                 { buffer := BufChoice.readOnly, start := 0, length := 2 }] }
    { read_buf := ReadBuffer.file, append_buf := ['x'],
      pieces := [{ buffer := BufChoice.readOnly, start := 0, length := 3 }] }
    ['a', 'b'] ['x', 'a', 'b'] (by decide)

theorem typingState_le3 {n q : Nat} {pt : PieceTable} (h : TypingState n q pt) :
    pt.pieces.length ≤ 3 := by
  obtain ⟨m, -, -, h | h | h | h | h⟩ := h
  · rw [h.2.2.2]; simp
  · obtain ⟨-, k, -, -, -, hp⟩ := h; rw [hp]; simp
  · rw [h.2.2]; simp
  · rw [h.2.2]; simp
  · obtain ⟨p, -, -, -, hp⟩ := h; rw [hp]; simp

theorem typingState_init (T : List Char) (p : Nat) (c : Char) (hp : p ≤ T.length) :
    ∃ pt', PieceTable.insert (fromStr T) [c] p = some pt' ∧
      TypingState T.length (p + 1) pt' := by
  rcases Nat.eq_zero_or_pos p with h0 | hpos
  · subst h0
    rcases Nat.eq_zero_or_pos T.length with hn0 | hn1
    · refine ⟨{ read_buf := ReadBuffer.str T, append_buf := [c],
                pieces := [{ buffer := BufChoice.appendOnly, start := 0, length := 1 },
                           { buffer := BufChoice.readOnly, start := 0, length := 0 }] },
              ?_, ?_⟩
      · simp [PieceTable.insert, insertRest, findPieceAtPosition, positionIsAtBorder,
              vecInsert, fromStr, hn0]
      · exact ⟨1, le_refl 1, rfl, Or.inl ⟨hn0, rfl, rfl, rfl⟩⟩
    · refine ⟨{ read_buf := ReadBuffer.str T, append_buf := [c],
                pieces := [{ buffer := BufChoice.appendOnly, start := 0, length := 1 },
                           { buffer := BufChoice.readOnly, start := 0, length := T.length }] },
              ?_, ?_⟩
      · simp [PieceTable.insert, insertRest, findPieceAtPosition, positionIsAtBorder,
              vecInsert, fromStr]
      · exact ⟨1, le_refl 1, rfl, Or.inr (Or.inr (Or.inl ⟨hn1, rfl, rfl⟩))⟩
  · have hne : p ≠ 0 := Nat.pos_iff_ne_zero.mp hpos
    rcases eq_or_lt_of_le hp with heq | hlt
    · subst heq
      refine ⟨{ read_buf := ReadBuffer.str T, append_buf := [c],
                pieces := [{ buffer := BufChoice.readOnly, start := 0, length := T.length },
                           { buffer := BufChoice.appendOnly, start := 0, length := 1 }] },
              ?_, ?_⟩
      · simp [PieceTable.insert, insertRest, findPieceAtPosition, positionIsAtBorder,
              vecInsert, fromStr, findAux, borderAux, hne]
      · exact ⟨1, le_refl 1, rfl, Or.inr (Or.inr (Or.inr (Or.inl ⟨hpos, rfl, rfl⟩)))⟩
    · refine ⟨{ read_buf := ReadBuffer.str T, append_buf := [c],
                pieces := [{ buffer := BufChoice.readOnly, start := 0, length := p },
                           { buffer := BufChoice.appendOnly, start := 0, length := 1 },
                           { buffer := BufChoice.readOnly, start := p,
                             length := T.length - p }] },
              ?_, ?_⟩
      · simp [PieceTable.insert, insertRest, findPieceAtPosition, positionIsAtBorder,
              vecInsert, fromStr, findAux, borderAux, hne, hlt, Nat.ne_of_lt hlt,
              dividePiece, sumLens]
      · exact ⟨1, le_refl 1, rfl, Or.inr (Or.inr (Or.inr (Or.inr ⟨p, hpos, hlt, rfl, rfl⟩)))⟩

theorem typingState_step {n q : Nat} {pt : PieceTable} (c : Char)
    (h : TypingState n q pt) :
    ∃ pt', PieceTable.insert pt [c] q = some pt' ∧ TypingState n (q + 1) pt' := by
  obtain ⟨rb, ab, ps⟩ := pt
  obtain ⟨m, hm1, hmlen, hsh | hsh | hsh | hsh | hsh⟩ := h
  · -- one character typed into the empty text
    obtain ⟨hn0, hmeq, hq, hps⟩ := hsh
    simp only at hmlen hps
    subst hmeq hq hps
    refine ⟨{ read_buf := rb, append_buf := ab ++ [c],
              pieces := [{ buffer := BufChoice.appendOnly, start := 0, length := 1 },
                         { buffer := BufChoice.readOnly, start := 0, length := 0 },
                         { buffer := BufChoice.appendOnly, start := 1, length := 1 }] },
            ?_, ?_⟩
    · simp [PieceTable.insert, insertRest, findPieceAtPosition, positionIsAtBorder,
            findAux, borderAux, vecInsert, hmlen]
    · exact ⟨2, by omega, by simp [hmlen], Or.inr (Or.inl ⟨hn0, 1, le_refl 1, rfl, rfl, rfl⟩)⟩
  · -- several characters typed into the empty text
    obtain ⟨hn0, k, hk1, hmeq, hq, hps⟩ := hsh
    simp only at hmlen hps
    subst hmeq hq hps
    refine ⟨{ read_buf := rb, append_buf := ab ++ [c],
              pieces := [{ buffer := BufChoice.appendOnly, start := 0, length := 1 },
                         { buffer := BufChoice.readOnly, start := 0, length := 0 },
                         { buffer := BufChoice.appendOnly, start := 1, length := k + 1 }] },
            ?_, ?_⟩
    · have h1 : ¬ (1 + k < 0 + 1) := by omega
      have h2 : 1 + k ≠ 0 + 1 := by omega
      simp [PieceTable.insert, insertRest, findPieceAtPosition, positionIsAtBorder,
            findAux, borderAux, vecInsert, hmlen, h1, h2, Nat.add_comm 1 k]
    · exact ⟨1 + k + 1, by omega, by simp [hmlen],
             Or.inr (Or.inl ⟨hn0, k + 1, by omega, by omega, by omega, rfl⟩)⟩
  · -- typing at the front of a non-empty text
    obtain ⟨hn1, hq, hps⟩ := hsh
    simp only at hmlen hps
    subst hq hps
    refine ⟨{ read_buf := rb, append_buf := ab ++ [c],
              pieces := [{ buffer := BufChoice.appendOnly, start := 0, length := q + 1 },
                         { buffer := BufChoice.readOnly, start := 0, length := n }] },
            ?_, ?_⟩
    · have hqne : q ≠ 0 := by omega
      have hn0 : 0 < n := hn1
      simp [PieceTable.insert, insertRest, findPieceAtPosition, positionIsAtBorder,
            findAux, borderAux, hqne, hn0, hmlen]
    · exact ⟨q + 1, by omega, by simp [hmlen], Or.inr (Or.inr (Or.inl ⟨hn1, rfl, rfl⟩))⟩
  · -- typing at the end of a non-empty text
    obtain ⟨hn1, hq, hps⟩ := hsh
    simp only at hmlen hps
    subst hq hps
    refine ⟨{ read_buf := rb, append_buf := ab ++ [c],
              pieces := [{ buffer := BufChoice.readOnly, start := 0, length := n },
                         { buffer := BufChoice.appendOnly, start := 0, length := m + 1 }] },
            ?_, ?_⟩
    · have hne : n + m ≠ 0 := by omega
      have h1 : ¬ (n + m < 0 + n) := by omega
      have h2 : n + m ≠ 0 + n := by omega
      simp [PieceTable.insert, insertRest, findPieceAtPosition, positionIsAtBorder,
            findAux, borderAux, hne, h1, h2, hmlen]
    · exact ⟨m + 1, by omega, by simp [hmlen], Or.inr (Or.inr (Or.inr (Or.inl ⟨hn1, rfl, rfl⟩)))⟩
  · -- typing in the middle of a non-empty text
    obtain ⟨p, hp0, hpn, hq, hps⟩ := hsh
    simp only at hmlen hps
    subst hq hps
    refine ⟨{ read_buf := rb, append_buf := ab ++ [c],
              pieces := [{ buffer := BufChoice.readOnly, start := 0, length := p },
                         { buffer := BufChoice.appendOnly, start := 0, length := m + 1 },
                         { buffer := BufChoice.readOnly, start := p, length := n - p }] },
            ?_, ?_⟩
    · have hne : p + m ≠ 0 := by omega
      have h1 : ¬ (p + m < 0 + p) := by omega
      have h2 : 0 < n - p := by omega
      have h3 : p + m ≠ 0 + p := by omega
      simp [PieceTable.insert, insertRest, findPieceAtPosition, positionIsAtBorder,
            findAux, borderAux, hne, h1, h2, h3, hmlen]
    · exact ⟨m + 1, by omega, by simp [hmlen],
             Or.inr (Or.inr (Or.inr (Or.inr ⟨p, hp0, hpn, rfl, rfl⟩)))⟩

theorem typingState_run {n : Nat} (cs : List Char) :
    ∀ (q : Nat) (pt : PieceTable), TypingState n q pt →
      ∃ pt', insertSeq pt q cs = some pt' ∧ TypingState n (q + cs.length) pt' := by
  induction cs with
  | nil => exact fun q pt h => ⟨pt, rfl, by simpa using h⟩
  | cons c cs' ih =>
    intro q pt h
    obtain ⟨pt1, h1, hts⟩ := typingState_step c h
    obtain ⟨pt', h2, hts'⟩ := ih (q + 1) pt1 hts
    refine ⟨pt', ?_, by simpa [Nat.add_assoc, Nat.add_comm 1 cs'.length] using hts'⟩
    simp [insertSeq, h1, h2]

/-- Claim C7 (amended): for every initial text and every sequence of
single-character insertions at the running cursor (each at the position
following the previous insertion — sequential typing), all insertions
succeed and the piece count stays bounded by the constant 3,
independently of the number of characters typed.  The coalescing fast
path engages from the second insertion on for a non-empty initial text
and from the third insertion on when the initial text is empty (see
`c7_counterexample`). -/
theorem c7_piece_count_bounded (T : List Char) (p : Nat) (cs : List Char)
    (hp : p ≤ T.length) :
    ∃ pt', insertSeq (fromStr T) p cs = some pt' ∧ pt'.pieces.length ≤ 3 := by
  cases cs with
  | nil => exact ⟨fromStr T, rfl, by simp [fromStr]⟩
  | cons c cs' =>
    obtain ⟨pt1, h1, hts⟩ := typingState_init T p c hp
    obtain ⟨pt', h2, hts'⟩ := typingState_run cs' (p + 1) pt1 hts
    exact ⟨pt', by simp [insertSeq, h1, h2], typingState_le3 hts'⟩

/-- Claim C7 witness: the theorem applied at `T = "ab"`, `p = 1`,
`cs = "xyz"`. -/
theorem c7_piece_count_bounded_witness :
    ∃ pt', insertSeq (fromStr ['a', 'b']) 1 ['x', 'y', 'z'] = some pt' ∧
      pt'.pieces.length ≤ 3 :=
  c7_piece_count_bounded ['a', 'b'] 1 ['x', 'y', 'z'] (by decide)

theorem mem_vecInsert {l : List Piece} {i : Nat} {x p : Piece}
    (h : p ∈ vecInsert l i x) : p = x ∨ p ∈ l := by
  rcases List.mem_append.mp h with h | h
  · exact Or.inr (List.mem_of_mem_take h)
  · rcases List.mem_cons.mp h with h | h
    · exact Or.inl h
    · exact Or.inr (List.mem_of_mem_drop h)

theorem mem_of_mem_eraseIdx {l : List Piece} {i : Nat} {p : Piece}
    (h : p ∈ l.eraseIdx i) : p ∈ l := by
  induction l generalizing i with
  | nil => simp [List.eraseIdx] at h
  | cons a l ih =>
    cases i with
    | zero => exact List.mem_cons_of_mem a h
    | succ i =>
      rcases List.mem_cons.mp h with h | h
      · exact h ▸ List.mem_cons_self a l
      · exact List.mem_cons_of_mem a (ih h)

theorem mem_of_set {l : List Piece} {i : Nat} {x p : Piece}
    (h : p ∈ l.set i x) : p = x ∨ p ∈ l := by
  rcases List.mem_or_eq_of_mem_set h with h | h
  · exact Or.inr h
  · exact Or.inl h

theorem set_eraseIdx (l : List Piece) (i : Nat) (x : Piece) :
    (l.set i x).eraseIdx i = l.eraseIdx i := by
  induction l generalizing i with
  | nil => simp
  | cons a l ih =>
    cases i with
    | zero => simp [List.eraseIdx]
    | succ i => simp [List.eraseIdx, ih]

theorem vecInsert_get?_self (l : List Piece) (i : Nat) (x : Piece) (h : i ≤ l.length) :
    (vecInsert l i x).get? i = some x := by
  induction l generalizing i with
  | nil =>
    simp only [Nat.le_zero, List.length_nil] at h
    subst h
    rfl
  | cons a l ih =>
    cases i with
    | zero => rfl
    | succ i => exact ih i (Nat.le_of_succ_le_succ h)

theorem sumLens_cons (p : Piece) (ps : List Piece) :
    sumLens (p :: ps) = p.length + sumLens ps := by
  simp [sumLens]

theorem sumLens_take_succ (ps : List Piece) (j : Nat) (piece : Piece)
    (h : ps.get? j = some piece) :
    sumLens (ps.take (j + 1)) = sumLens (ps.take j) + piece.length := by
  induction ps generalizing j with
  | nil => simp at h
  | cons a ps ih =>
    cases j with
    | zero =>
      simp only [List.get?] at h
      cases h
      simp [sumLens]
    | succ j =>
      simp only [List.get?] at h
      rw [List.take_succ_cons, List.take_succ_cons, sumLens_cons, sumLens_cons, ih j h]
      omega

theorem findAux_le (ps : List Piece) (pos c : Nat) : findAux ps pos c ≤ ps.length := by
  induction ps generalizing c with
  | nil => simp [findAux]
  | cons p ps ih =>
    rw [findAux]
    split
    · simp
    · simpa using ih (c + p.length)

theorem findAux_lower (ps : List Piece) (pos c : Nat) (hc : c ≤ pos) :
    c + sumLens (ps.take (findAux ps pos c)) ≤ pos := by
  induction ps generalizing c with
  | nil => simpa [findAux, sumLens] using hc
  | cons p ps ih =>
    rw [findAux]
    split
    · simpa [sumLens] using hc
    · rename_i hge
      have := ih (c + p.length) (Nat.le_of_not_lt hge)
      simpa [sumLens, List.take_succ_cons, Nat.add_assoc] using this

theorem findAux_upper (ps : List Piece) (pos c : Nat)
    (h : findAux ps pos c < ps.length) :
    pos < c + sumLens (ps.take (findAux ps pos c + 1)) := by
  induction ps generalizing c with
  | nil => simp at h
  | cons p ps ih =>
    rw [findAux] at h ⊢
    split
    · rename_i hlt
      simpa [sumLens] using hlt
    · rename_i hge
      rw [if_neg hge] at h
      simp only [List.length_cons] at h
      have := ih (c + p.length) (by omega)
      simpa [sumLens, List.take_succ_cons, Nat.add_assoc] using this

theorem borderAux_ne (ps : List Piece) (pos c : Nat) (h : borderAux ps pos c = false) :
    ∀ j, j < ps.length → pos ≠ c + sumLens (ps.take (j + 1)) := by
  induction ps generalizing c with
  | nil => intro j hj; simp at hj
  | cons p ps ih =>
    rw [borderAux] at h
    split at h
    · exact absurd h (by simp)
    · rename_i hne
      intro j hj
      cases j with
      | zero => simpa [sumLens] using hne
      | succ j =>
        have := ih (c + p.length) h j (by simpa using hj)
        simpa [sumLens, List.take_succ_cons, Nat.add_assoc] using this

theorem splitLoop_some (ps : List Piece) (pos c : Nat) (hc : c ≤ pos)
    (h : pos < c + sumLens ps) :
    ∃ j ip piece, splitLoop ps pos c = some (j, ip) ∧ ps.get? j = some piece ∧
      ip < piece.length := by
  induction ps generalizing c with
  | nil => simp [sumLens] at h; omega
  | cons p ps ih =>
    rw [splitLoop]
    split
    · rename_i hlt
      exact ⟨0, pos - c, p, rfl, rfl, by omega⟩
    · rename_i hge
      have hsum : pos < c + p.length + sumLens ps := by
        simpa [sumLens, Nat.add_assoc] using h
      obtain ⟨j, ip, piece, heq, hget, hip⟩ :=
        ih (c + p.length) (Nat.le_of_not_lt hge) hsum
      exact ⟨j + 1, ip, piece, by rw [heq]; rfl, hget, hip⟩

theorem insertRest_cases {pt pt' : PieceTable} {s : List Char} {i : Nat}
    (h : insertRest pt s i = some pt') :
    pt'.read_buf = pt.read_buf ∧ pt'.append_buf = pt.append_buf ++ s ∧
    ( (pt'.pieces = vecInsert pt.pieces (findPieceAtPosition pt i)
        { buffer := BufChoice.appendOnly, start := pt.append_buf.length,
          length := s.length })
    ∨ (∃ piece, positionIsAtBorder pt i = false ∧
        pt.pieces.get? (findPieceAtPosition pt i) = some piece ∧
        pt'.pieces = vecInsert (vecInsert (vecInsert
            (pt.pieces.eraseIdx (findPieceAtPosition pt i))
            (findPieceAtPosition pt i)
            { buffer := piece.buffer, start := piece.start,
              length := i - sumLens (pt.pieces.take (findPieceAtPosition pt i)) })
            (findPieceAtPosition pt i + 1)
            { buffer := piece.buffer,
              start := piece.start +
                (i - sumLens (pt.pieces.take (findPieceAtPosition pt i))),
              length := piece.length -
                (i - sumLens (pt.pieces.take (findPieceAtPosition pt i))) })
            (findPieceAtPosition pt i + 1)
            { buffer := BufChoice.appendOnly, start := pt.append_buf.length,
              length := s.length })) := by
  unfold insertRest at h
  dsimp only at h
  split at h
  · rw [Option.some_inj] at h
    subst h
    exact ⟨rfl, rfl, Or.inl rfl⟩
  · rename_i hborder
    simp only [Bool.not_eq_true] at hborder
    split at h
    · cases h
    · rename_i pt2 heq2
      rw [Option.some_inj] at h
      subst h
      unfold dividePiece at heq2
      dsimp only at heq2
      split at heq2
      · cases heq2
      · rename_i piece hget
        rw [Option.some_inj] at heq2
        subst heq2
        exact ⟨rfl, rfl, Or.inr ⟨piece, hborder, hget, rfl⟩⟩

theorem insert_cases {pt pt' : PieceTable} {s : List Char} {i : Nat}
    (h : PieceTable.insert pt s i = some pt') :
    pt'.read_buf = pt.read_buf ∧ pt'.append_buf = pt.append_buf ++ s ∧
    ( (∃ j prev, pt.pieces.get? j = some prev ∧ prev.buffer = BufChoice.appendOnly ∧
        prev.start + prev.length = pt.append_buf.length ∧
        pt'.pieces = pt.pieces.set j
          { buffer := prev.buffer, start := prev.start,
            length := prev.length + s.length })
    ∨ (pt'.pieces = vecInsert pt.pieces (findPieceAtPosition pt i)
        { buffer := BufChoice.appendOnly, start := pt.append_buf.length,
          length := s.length })
    ∨ (∃ piece, positionIsAtBorder pt i = false ∧
        pt.pieces.get? (findPieceAtPosition pt i) = some piece ∧
        pt'.pieces = vecInsert (vecInsert (vecInsert
            (pt.pieces.eraseIdx (findPieceAtPosition pt i))
            (findPieceAtPosition pt i)
            { buffer := piece.buffer, start := piece.start,
              length := i - sumLens (pt.pieces.take (findPieceAtPosition pt i)) })
            (findPieceAtPosition pt i + 1)
            { buffer := piece.buffer,
              start := piece.start +
                (i - sumLens (pt.pieces.take (findPieceAtPosition pt i))),
              length := piece.length -
                (i - sumLens (pt.pieces.take (findPieceAtPosition pt i))) })
            (findPieceAtPosition pt i + 1)
            { buffer := BufChoice.appendOnly, start := pt.append_buf.length,
              length := s.length })) := by
  unfold PieceTable.insert at h
  dsimp only at h
  split at h
  · rename_i prev heq
    split at heq
    · rename_i hcond
      split at h
      · rename_i hprev
        rw [Option.some_inj] at h
        subst h
        exact ⟨rfl, rfl, Or.inl ⟨findPieceAtPosition pt i - 1, prev, heq,
          hprev.1, hprev.2, rfl⟩⟩
      · obtain ⟨h1, h2, h3⟩ := insertRest_cases h
        exact ⟨h1, h2, Or.inr h3⟩
    · cases heq
  · obtain ⟨h1, h2, h3⟩ := insertRest_cases h
    exact ⟨h1, h2, Or.inr h3⟩

theorem vecInsert_length (l : List Piece) (i : Nat) (x : Piece) :
    (vecInsert l i x).length = l.length + 1 := by
  simp [vecInsert]
  omega

theorem length_eraseIdx_lt {l : List Piece} {i : Nat} (h : i < l.length) :
    (l.eraseIdx i).length = l.length - 1 := by
  induction l generalizing i with
  | nil => simp at h
  | cons a l ih =>
    cases i with
    | zero => simp [List.eraseIdx]
    | succ i =>
      simp only [List.eraseIdx, List.length_cons]
      rw [ih (by simpa using h)]
      simp only [List.length_cons] at h
      omega

theorem deleteAndJoin_cases {pt pt' : PieceTable} {j : Nat}
    (h : deleteAndJoin pt j = some pt') :
    pt'.read_buf = pt.read_buf ∧ pt'.append_buf = pt.append_buf ∧
    ( pt'.pieces = pt.pieces.eraseIdx j
    ∨ ∃ prev next, (pt.pieces.eraseIdx j).get? (j - 1) = some prev ∧
        (pt.pieces.eraseIdx j).get? j = some next ∧
        prev.buffer = next.buffer ∧ prev.start + prev.length = next.start ∧
        pt'.pieces = ((pt.pieces.eraseIdx j).set (j - 1)
          { buffer := prev.buffer, start := prev.start,
            length := prev.length + next.length }).eraseIdx j ) := by
  unfold deleteAndJoin at h
  dsimp only at h
  split at h
  · rw [Option.some_inj] at h
    subst h
    exact ⟨rfl, rfl, Or.inl rfl⟩
  · split at h
    · rename_i prev next hprev hnext
      split at h
      · rename_i hcond
        rw [Option.some_inj] at h
        subst h
        exact ⟨rfl, rfl, Or.inr ⟨prev, next, hprev, hnext, hcond.1, hcond.2, rfl⟩⟩
      · rw [Option.some_inj] at h
        subst h
        exact ⟨rfl, rfl, Or.inl rfl⟩
    · cases h

theorem deleteChar_cases {pt pt' : PieceTable} {i : Nat}
    (htot : i < totalLength pt) (h : deleteChar pt i = some pt') :
    pt'.read_buf = pt.read_buf ∧ pt'.append_buf = pt.append_buf ∧
    ∃ j ip piece, pt.pieces.get? j = some piece ∧ ip < piece.length ∧
    ( (ip = 0 ∧ 1 < piece.length ∧ pt'.pieces = pt.pieces.set j
        { buffer := piece.buffer, start := piece.start + 1,
          length := piece.length - 1 })
    ∨ (ip = 0 ∧ piece.length = 1 ∧ pt'.pieces = pt.pieces.eraseIdx j)
    ∨ (ip = 0 ∧ piece.length = 1 ∧ ∃ prev next,
        (pt.pieces.eraseIdx j).get? (j - 1) = some prev ∧
        (pt.pieces.eraseIdx j).get? j = some next ∧
        prev.buffer = next.buffer ∧ prev.start + prev.length = next.start ∧
        pt'.pieces = ((pt.pieces.eraseIdx j).set (j - 1)
          { buffer := prev.buffer, start := prev.start,
            length := prev.length + next.length }).eraseIdx j)
    ∨ (ip ≠ 0 ∧ ip = piece.length - 1 ∧ pt'.pieces = pt.pieces.set j
        { buffer := piece.buffer, start := piece.start,
          length := piece.length - 1 })
    ∨ (ip ≠ 0 ∧ ip ≠ piece.length - 1 ∧ pt'.pieces =
        (vecInsert (vecInsert (pt.pieces.eraseIdx j) j
            { buffer := piece.buffer, start := piece.start, length := ip })
          (j + 1)
          { buffer := piece.buffer, start := piece.start + ip,
            length := piece.length - ip }).set (j + 1)
          { buffer := piece.buffer, start := piece.start + ip + 1,
            length := piece.length - ip - 1 }) ) := by
  obtain ⟨j, ip, piece, heq, hget, hip⟩ :=
    splitLoop_some pt.pieces i 0 (Nat.zero_le i) (by simpa [totalLength] using htot)
  have hsplit : splitPieceIndexAndLenght pt i = some (j, ip) := by
    unfold splitPieceIndexAndLenght
    rw [heq]
  unfold deleteChar at h
  rw [hsplit] at h
  dsimp only at h
  rw [hget] at h
  dsimp only at h
  split at h
  · -- first character of the piece
    rename_i hip0
    split at h
    · -- the piece became empty: delete_and_join
      rename_i hlen0
      have hlen1 : piece.length = 1 := by omega
      obtain ⟨h1, h2, hcases⟩ := deleteAndJoin_cases h
      dsimp only at h1 h2 hcases
      rw [set_eraseIdx] at hcases
      rcases hcases with hc | ⟨prev, next, hp, hn, hb, hs, hps⟩
      · exact ⟨h1, h2, j, ip, piece, hget, hip,
          Or.inr (Or.inl ⟨hip0, hlen1, hc⟩)⟩
      · exact ⟨h1, h2, j, ip, piece, hget, hip,
          Or.inr (Or.inr (Or.inl ⟨hip0, hlen1, prev, next, hp, hn, hb, hs, hps⟩))⟩
    · -- the piece keeps at least one character
      rename_i hlen0
      have hlen2 : 1 < piece.length := by omega
      rw [Option.some_inj] at h
      subst h
      exact ⟨rfl, rfl, j, ip, piece, hget, hip, Or.inl ⟨hip0, hlen2, rfl⟩⟩
  · -- not the first character
    rename_i hip0
    split at h
    · -- last character of the piece
      rename_i hiplast
      rw [Option.some_inj] at h
      subst h
      exact ⟨rfl, rfl, j, ip, piece, hget, hip, Or.inr (Or.inr (Or.inr (Or.inl
        ⟨hip0, hiplast, rfl⟩)))⟩
    · -- interior: divide the piece
      rename_i hiplast
      split at h
      · cases h
      · rename_i pt2 heq2
        unfold dividePiece at heq2
        rw [hget] at heq2
        dsimp only at heq2
        rw [Option.some_inj] at heq2
        subst heq2
        have hj : j < pt.pieces.length := by
          rcases List.get?_eq_some.mp hget with ⟨hj, -⟩
          exact hj
        have hB : (vecInsert (vecInsert (pt.pieces.eraseIdx j) j
              { buffer := piece.buffer, start := piece.start, length := ip }) (j + 1)
              { buffer := piece.buffer, start := piece.start + ip,
                length := piece.length - ip }).get? (j + 1) =
            some { buffer := piece.buffer, start := piece.start + ip,
                   length := piece.length - ip } := by
          apply vecInsert_get?_self
          rw [vecInsert_length, length_eraseIdx_lt hj]
          omega
        rw [hB] at h
        dsimp only at h
        rw [Option.some_inj] at h
        subst h
        exact ⟨rfl, rfl, j, ip, piece, hget, hip, Or.inr (Or.inr (Or.inr (Or.inr
          ⟨hip0, hiplast, rfl⟩)))⟩

theorem bufBound_eq_of_append_eq {T : List Char} {pt pt' : PieceTable}
    (h : pt'.append_buf = pt.append_buf) (q : Piece) :
    bufBound T pt' q = bufBound T pt q := by
  unfold bufBound
  rw [h]

theorem bufBound_le_of_append_grow {T : List Char} {pt pt' : PieceTable} {s : List Char}
    (h : pt'.append_buf = pt.append_buf ++ s) (q : Piece) :
    bufBound T pt q ≤ bufBound T pt' q := by
  unfold bufBound
  cases q.buffer
  · exact le_refl _
  · rw [h]
    simp

theorem bufBound_buffer_congr {T : List Char} {pt : PieceTable} {q r : Piece}
    (h : q.buffer = r.buffer) : bufBound T pt q = bufBound T pt r := by
  unfold bufBound
  rw [h]

theorem get?_mem_pieces {l : List Piece} {j : Nat} {p : Piece}
    (h : l.get? j = some p) : p ∈ l := by
  induction l generalizing j with
  | nil => simp at h
  | cons a l ih =>
    cases j with
    | zero =>
      simp only [List.get?] at h
      cases h
      exact List.mem_cons_self _ _
    | succ j => exact List.mem_cons_of_mem a (ih h)

theorem connectList_some (ro ap : List Char) (ps : List Piece)
    (h : ∀ p ∈ ps, p.start + p.length ≤
      match p.buffer with
      | BufChoice.readOnly => ro.length
      | BufChoice.appendOnly => ap.length) :
    ∃ r, connectList ro ap ps = some r := by
  induction ps with
  | nil => exact ⟨[], rfl⟩
  | cons p ps ih =>
    obtain ⟨r, hr⟩ := ih (fun q hq => h q (List.mem_cons_of_mem p hq))
    have hp := h p (List.mem_cons_self p ps)
    rw [connectList]
    cases hbuf : p.buffer with
    | readOnly =>
      rw [hbuf] at hp
      dsimp only at hp ⊢
      rw [sliceOf, if_pos hp, hr]
      exact ⟨_, rfl⟩
    | appendOnly =>
      rw [hbuf] at hp
      dsimp only at hp ⊢
      rw [sliceOf, if_pos hp, hr]
      exact ⟨_, rfl⟩

theorem nonborder_facts {pt : PieceTable} {i : Nat} {piece : Piece}
    (hborder : positionIsAtBorder pt i = false)
    (hget : pt.pieces.get? (findPieceAtPosition pt i) = some piece) :
    sumLens (pt.pieces.take (findPieceAtPosition pt i)) < i ∧
    i < sumLens (pt.pieces.take (findPieceAtPosition pt i)) + piece.length := by
  have hi0 : i ≠ 0 := by
    intro h0
    rw [positionIsAtBorder, if_pos h0] at hborder
    cases hborder
  have hbaux : borderAux pt.pieces i 0 = false := by
    rw [positionIsAtBorder, if_neg hi0] at hborder
    exact hborder
  have hjdef : findPieceAtPosition pt i = findAux pt.pieces i 0 := by
    rw [findPieceAtPosition, if_neg hi0]
  have hj : findPieceAtPosition pt i < pt.pieces.length := by
    rcases List.get?_eq_some.mp hget with ⟨hj, -⟩
    exact hj
  have hupper : i < sumLens (pt.pieces.take (findPieceAtPosition pt i)) + piece.length := by
    have := findAux_upper pt.pieces i 0 (hjdef ▸ hj)
    rw [← hjdef] at this
    rwa [Nat.zero_add, sumLens_take_succ pt.pieces _ piece hget] at this
  have hlower : sumLens (pt.pieces.take (findPieceAtPosition pt i)) ≤ i := by
    have := findAux_lower pt.pieces i 0 (Nat.zero_le i)
    rw [← hjdef] at this
    simpa using this
  refine ⟨Nat.lt_of_le_of_ne hlower ?_, hupper⟩
  intro hcontra
  cases hjc : findPieceAtPosition pt i with
  | zero =>
    rw [hjc] at hcontra
    simp [sumLens] at hcontra
    exact hi0 hcontra.symm
  | succ j' =>
    have hj' : j' < pt.pieces.length := by omega
    have := borderAux_ne pt.pieces i 0 hbaux j' hj'
    rw [Nat.zero_add] at this
    rw [hjc] at hcontra
    exact this hcontra.symm

theorem insert_pres_inbounds {T : List Char} {pt pt' : PieceTable} {s : List Char}
    {i : Nat} (hI : Inbounds T pt) (h : PieceTable.insert pt s i = some pt') :
    Inbounds T pt' := by
  obtain ⟨hrb, hbnd⟩ := hI
  obtain ⟨h1, h2, hcases⟩ := insert_cases h
  refine ⟨by rw [h1, hrb], ?_⟩
  have hgrow : ∀ q : Piece, q.start + q.length ≤ bufBound T pt q →
      q.start + q.length ≤ bufBound T pt' q :=
    fun q hq => le_trans hq (bufBound_le_of_append_grow h2 q)
  have hap' : pt'.append_buf.length = pt.append_buf.length + s.length := by
    rw [h2]
    simp
  intro p hp
  rcases hcases with ⟨j, prev, hget, hbuf, hend, hps⟩ | hps | ⟨piece, hborder, hget, hps⟩
  · rw [hps] at hp
    rcases mem_of_set hp with rfl | hp
    · show prev.start + (prev.length + s.length) ≤ bufBound T pt' _
      unfold bufBound
      dsimp only
      rw [hbuf]
      dsimp only
      rw [hap']
      omega
    · exact hgrow p (hbnd p hp)
  · rw [hps] at hp
    rcases mem_vecInsert hp with rfl | hp
    · show pt.append_buf.length + s.length ≤ bufBound T pt' _
      unfold bufBound
      dsimp only
      rw [hap']
    · exact hgrow p (hbnd p hp)
  · obtain ⟨hlow, hupp⟩ := nonborder_facts hborder hget
    have hpieceB : piece.start + piece.length ≤ bufBound T pt piece :=
      hbnd piece (get?_mem_pieces hget)
    rw [hps] at hp
    rcases mem_vecInsert hp with rfl | hp
    · show pt.append_buf.length + s.length ≤ bufBound T pt' _
      unfold bufBound
      dsimp only
      rw [hap']
    · rcases mem_vecInsert hp with rfl | hp
      · refine hgrow _ (le_trans ?_ hpieceB)
        dsimp only
        omega
      · rcases mem_vecInsert hp with rfl | hp
        · refine hgrow _ (le_trans ?_ hpieceB)
          dsimp only
          omega
        · exact hgrow p (hbnd p (mem_of_mem_eraseIdx hp))

theorem insert_pres_pos {pt pt' : PieceTable} {s : List Char} {i : Nat}
    (hs : s ≠ []) (hpos : ∀ p ∈ pt.pieces, 0 < p.length)
    (h : PieceTable.insert pt s i = some pt') :
    ∀ p ∈ pt'.pieces, 0 < p.length := by
  have hslen : 0 < s.length := List.length_pos.mpr hs
  obtain ⟨-, -, hcases⟩ := insert_cases h
  intro p hp
  rcases hcases with ⟨j, prev, hget, hbuf, hend, hps⟩ | hps | ⟨piece, hborder, hget, hps⟩
  · rw [hps] at hp
    rcases mem_of_set hp with rfl | hp
    · dsimp only
      omega
    · exact hpos p hp
  · rw [hps] at hp
    rcases mem_vecInsert hp with rfl | hp
    · exact hslen
    · exact hpos p hp
  · obtain ⟨hlow, hupp⟩ := nonborder_facts hborder hget
    rw [hps] at hp
    rcases mem_vecInsert hp with rfl | hp
    · exact hslen
    · rcases mem_vecInsert hp with rfl | hp
      · dsimp only
        omega
      · rcases mem_vecInsert hp with rfl | hp
        · dsimp only
          omega
        · exact hpos p (mem_of_mem_eraseIdx hp)

theorem delete_pres_inbounds {T : List Char} {pt pt' : PieceTable} {i : Nat}
    (htot : i < totalLength pt) (hI : Inbounds T pt)
    (h : deleteChar pt i = some pt') : Inbounds T pt' := by
  obtain ⟨hrb, hbnd⟩ := hI
  obtain ⟨h1, h2, j, ip, piece, hget, hip, hcases⟩ := deleteChar_cases htot h
  refine ⟨by rw [h1, hrb], ?_⟩
  have hbb : ∀ q, bufBound T pt' q = bufBound T pt q := bufBound_eq_of_append_eq h2
  have hpieceB : piece.start + piece.length ≤ bufBound T pt piece :=
    hbnd piece (get?_mem_pieces hget)
  intro p hp
  rw [hbb p]
  rcases hcases with ⟨hip0, hlen, hps⟩ | ⟨hip0, hlen, hps⟩ |
    ⟨hip0, hlen, prev, next, hpv, hnx, hbq, hcontig, hps⟩ |
    ⟨hip0, hlen, hps⟩ | ⟨hip0, hlen, hps⟩
  · rw [hps] at hp
    rcases mem_of_set hp with rfl | hp
    · exact le_trans (by dsimp only; omega) hpieceB
    · exact hbnd p hp
  · rw [hps] at hp
    exact hbnd p (mem_of_mem_eraseIdx hp)
  · have hprev : prev ∈ pt.pieces := mem_of_mem_eraseIdx (get?_mem_pieces hpv)
    have hnext : next ∈ pt.pieces := mem_of_mem_eraseIdx (get?_mem_pieces hnx)
    have hnextB : next.start + next.length ≤ bufBound T pt next := hbnd next hnext
    rw [hps] at hp
    rcases mem_of_set (mem_of_mem_eraseIdx hp) with rfl | hp
    · have hbeq : bufBound T pt prev = bufBound T pt next := bufBound_buffer_congr hbq
      exact le_trans (by dsimp only; omega) (le_of_le_of_eq hnextB hbeq.symm)
    · exact hbnd p (mem_of_mem_eraseIdx hp)
  · rw [hps] at hp
    rcases mem_of_set hp with rfl | hp
    · exact le_trans (by dsimp only; omega) hpieceB
    · exact hbnd p hp
  · rw [hps] at hp
    rcases mem_of_set hp with rfl | hp
    · exact le_trans (by dsimp only; omega) hpieceB
    · rcases mem_vecInsert hp with rfl | hp
      · exact le_trans (by dsimp only; omega) hpieceB
      · rcases mem_vecInsert hp with rfl | hp
        · exact le_trans (by dsimp only; omega) hpieceB
        · exact hbnd p (mem_of_mem_eraseIdx hp)

theorem delete_pres_pos {pt pt' : PieceTable} {i : Nat}
    (htot : i < totalLength pt) (hpos : ∀ p ∈ pt.pieces, 0 < p.length)
    (h : deleteChar pt i = some pt') : ∀ p ∈ pt'.pieces, 0 < p.length := by
  obtain ⟨-, -, j, ip, piece, hget, hip, hcases⟩ := deleteChar_cases htot h
  intro p hp
  rcases hcases with ⟨hip0, hlen, hps⟩ | ⟨hip0, hlen, hps⟩ |
    ⟨hip0, hlen, prev, next, hpv, hnx, hbq, hcontig, hps⟩ |
    ⟨hip0, hlen, hps⟩ | ⟨hip0, hlen, hps⟩
  · rw [hps] at hp
    rcases mem_of_set hp with rfl | hp
    · dsimp only
      omega
    · exact hpos p hp
  · rw [hps] at hp
    exact hpos p (mem_of_mem_eraseIdx hp)
  · have hprev : prev ∈ pt.pieces := mem_of_mem_eraseIdx (get?_mem_pieces hpv)
    have hprevpos := hpos prev hprev
    rw [hps] at hp
    rcases mem_of_set (mem_of_mem_eraseIdx hp) with rfl | hp
    · dsimp only
      omega
    · exact hpos p (mem_of_mem_eraseIdx hp)
  · rw [hps] at hp
    rcases mem_of_set hp with rfl | hp
    · dsimp only
      omega
    · exact hpos p hp
  · rw [hps] at hp
    rcases mem_of_set hp with rfl | hp
    · dsimp only
      omega
    · rcases mem_vecInsert hp with rfl | hp
      · dsimp only
        omega
      · rcases mem_vecInsert hp with rfl | hp
        · dsimp only
          omega
        · exact hpos p (mem_of_mem_eraseIdx hp)

theorem reach_inbounds {T : List Char} {pt : PieceTable} (h : Reach T pt) :
    Inbounds T pt := by
  induction h with
  | base =>
    refine ⟨rfl, ?_⟩
    intro p hp
    simp only [fromStr, List.mem_singleton] at hp
    subst hp
    unfold bufBound
    dsimp only
    omega
  | ins hR hs hle hins ih => exact insert_pres_inbounds ih hins
  | del hR hlt hdel ih => exact delete_pres_inbounds hlt ih hdel

theorem reach_pos {T : List Char} {pt : PieceTable} (hT : T ≠ []) (h : Reach T pt) :
    ∀ p ∈ pt.pieces, 0 < p.length := by
  induction h with
  | base =>
    intro p hp
    simp only [fromStr, List.mem_singleton] at hp
    subst hp
    exact List.length_pos.mpr hT
  | ins hR hs hle hins ih => exact insert_pres_pos hs ih hins
  | del hR hlt hdel ih => exact delete_pres_pos hlt ih hdel

/-- Claim C10: in every state reachable by construction from a string
followed by valid `insert` / `delete_char` calls at in-range indices,
every piece's half-open span lies within the bounds of the buffer it
references, and `display_result` on the string-backed table reads no
slice out of bounds and returns `Ok`. -/
theorem c10_reachable_spans_valid (T : List Char) (pt : PieceTable) (h : Reach T pt) :
    (∀ p ∈ pt.pieces, p.start + p.length ≤ bufBound T pt p) ∧
    ∃ r, displayResult pt [] = some r := by
  obtain ⟨hrb, hbnd⟩ := reach_inbounds h
  refine ⟨hbnd, ?_⟩
  obtain ⟨r, hr⟩ := connectList_some T pt.append_buf pt.pieces (fun p hp => by
    have hb := hbnd p hp
    unfold bufBound at hb
    exact hb)
  refine ⟨r, ?_⟩
  rw [displayResult, hrb]
  exact hr

/-- Claim C10 witness: the theorem applied at the loaded state of
`T = "a"`. -/
theorem c10_reachable_spans_valid_witness :
    (∀ p ∈ (fromStr ['a']).pieces,
      p.start + p.length ≤ bufBound ['a'] (fromStr ['a']) p) ∧
    ∃ r, displayResult (fromStr ['a']) [] = some r :=
  c10_reachable_spans_valid ['a'] (fromStr ['a']) Reach.base

/-- Claim C8 (amended): in every state reachable by construction from a
NON-EMPTY string followed by valid `insert` / `delete_char` calls, every
piece has `length > 0`.  Construction itself always produces exactly one
piece spanning the whole read-only buffer — so the empty source yields
one zero-length piece, not zero pieces (see `c8_counterexample`). -/
theorem c8_no_zero_length_pieces (T : List Char) (pt : PieceTable) (hT : T ≠ [])
    (h : Reach T pt) :
    (∀ p ∈ pt.pieces, 0 < p.length) ∧
    (fromStr ([] : List Char)).pieces.length = 1 :=
  ⟨reach_pos hT h, rfl⟩

/-- Claim C8 witness: the theorem applied at the loaded state of
`T = "a"`. -/
theorem c8_no_zero_length_pieces_witness :
    (∀ p ∈ (fromStr ['a']).pieces, 0 < p.length) ∧
    (fromStr ([] : List Char)).pieces.length = 1 :=
  c8_no_zero_length_pieces ['a'] (fromStr ['a']) (by decide) Reach.base

theorem splitLoop_none (ps : List Piece) (pos c : Nat) (h : c + sumLens ps ≤ pos) :
    splitLoop ps pos c = none := by
  induction ps generalizing c with
  | nil => rfl
  | cons p ps ih =>
    rw [sumLens_cons] at h
    rw [splitLoop, if_neg (by omega), ih (c + p.length) (by omega)]
    rfl

theorem findAux_full (ps : List Piece) (pos c : Nat) (h : c + sumLens ps ≤ pos) :
    findAux ps pos c = ps.length := by
  induction ps generalizing c with
  | nil => rfl
  | cons p ps ih =>
    rw [sumLens_cons] at h
    rw [findAux, if_neg (by omega), ih (c + p.length) (by omega)]
    rfl

theorem borderAux_false_of_lt (ps : List Piece) (pos c : Nat)
    (h : c + sumLens ps < pos) : borderAux ps pos c = false := by
  induction ps generalizing c with
  | nil => rfl
  | cons p ps ih =>
    rw [sumLens_cons] at h
    rw [borderAux, if_neg (by omega)]
    exact ih (c + p.length) (by omega)

theorem get?_set_self (l : List Piece) (i : Nat) (x : Piece) (h : i < l.length) :
    (l.set i x).get? i = some x := by
  induction l generalizing i with
  | nil => simp at h
  | cons a l ih =>
    cases i with
    | zero => rfl
    | succ i => exact ih i (by simpa using h)

theorem getLast?_eq_get?_last (l : List Piece) : l.getLast? = l.get? (l.length - 1) := by
  induction l with
  | nil => rfl
  | cons a l ih =>
    cases l with
    | nil => rfl
    | cons b l' =>
      rw [List.getLast?_cons_cons, ih]
      simp

/-- Claim C3 (amended): for EVERY piece table, an out-of-range index is
never surfaced as a recoverable error.  `insert(s, i)` with
`i > total_length()` is a fatal fault (out-of-bounds `Vec::remove`
inside `divide_piece`).  `delete_char(i)` with `i ≥ total_length()` is
silently clamped by `split_piece_index_and_lenght` to the last character
of the LAST piece, and then: with no pieces, or a zero-length last
piece, the call is a fatal `usize`-underflow fault; with a length-1 last
piece it is removed when it is the only piece, and the call is a fatal
out-of-bounds fault otherwise (the `delete_and_join` bug of C4); with a
longer last piece its final character is silently deleted — the piece
sequence IS modified, never left untouched with an error. -/
theorem c3_amended (pt : PieceTable) (s : List Char) (i : Nat) (last : Piece)
    (hi : totalLength pt ≤ i) :
    (totalLength pt < i → PieceTable.insert pt s i = none) ∧
    (pt.pieces = [] → deleteChar pt i = none) ∧
    (pt.pieces.getLast? = some last →
      (last.length = 0 → deleteChar pt i = none) ∧
      (last.length = 1 → pt.pieces.length = 1 →
        deleteChar pt i =
          some { read_buf := pt.read_buf, append_buf := pt.append_buf, pieces := [] }) ∧
      (last.length = 1 → 1 < pt.pieces.length → deleteChar pt i = none) ∧
      (2 ≤ last.length →
        deleteChar pt i =
          some { read_buf := pt.read_buf, append_buf := pt.append_buf,
                 pieces := pt.pieces.set (pt.pieces.length - 1)
                   { buffer := last.buffer, start := last.start,
                     length := last.length - 1 } } ∧
        pt.pieces.set (pt.pieces.length - 1)
          { buffer := last.buffer, start := last.start, length := last.length - 1 } ≠
          pt.pieces)) := by
  have hsum : sumLens pt.pieces ≤ i := hi
  have hloop : splitLoop pt.pieces i 0 = none :=
    splitLoop_none pt.pieces i 0 (by omega)
  refine ⟨?_, ?_, ?_⟩
  · -- insert past the end: always a panic
    intro hlt
    have hsumlt : sumLens pt.pieces < i := hlt
    have hi0 : i ≠ 0 := by omega
    have hfind : findPieceAtPosition pt i = pt.pieces.length := by
      rw [findPieceAtPosition, if_neg hi0]
      exact findAux_full pt.pieces i 0 (by omega)
    have hbord : positionIsAtBorder pt i = false := by
      rw [positionIsAtBorder, if_neg hi0]
      exact borderAux_false_of_lt pt.pieces i 0 (by omega)
    have hdiv : dividePiece pt pt.pieces.length
        (i - sumLens (pt.pieces.take pt.pieces.length)) = none := by
      unfold dividePiece
      rw [List.get?_eq_none.mpr (le_refl pt.pieces.length)]
    unfold PieceTable.insert
    dsimp only
    rw [hbord, if_neg (by simp)]
    unfold insertRest
    dsimp only
    rw [hbord, if_neg (by simp), hfind, hdiv]
  · -- delete on an empty piece sequence: usize underflow panic
    intro hnil
    simp [deleteChar, splitPieceIndexAndLenght, splitLoop, hnil]
  · intro hlast
    have hget : pt.pieces.get? (pt.pieces.length - 1) = some last := by
      rw [← getLast?_eq_get?_last]
      exact hlast
    have hlen1 : 1 ≤ pt.pieces.length := by
      rcases List.get?_eq_some.mp hget with ⟨hlt, -⟩
      omega
    refine ⟨?_, ?_, ?_, ?_⟩
    · -- zero-length last piece: usize underflow panic
      intro h0
      have hsplit : splitPieceIndexAndLenght pt i = none := by
        unfold splitPieceIndexAndLenght
        rw [hloop, hlast]
        dsimp only
        rw [if_pos h0]
      unfold deleteChar
      rw [hsplit]
    · -- length-1 last piece, single piece: the piece is removed
      intro h1 hplen
      have hsplit : splitPieceIndexAndLenght pt i =
          some (pt.pieces.length - 1, last.length - 1) := by
        unfold splitPieceIndexAndLenght
        rw [hloop, hlast]
        dsimp only
        rw [if_neg (show ¬ last.length = 0 by omega)]
      unfold deleteChar
      rw [hsplit]
      dsimp only
      rw [hget]
      dsimp only
      rw [if_pos (show last.length - 1 = 0 by omega),
          if_pos (show last.length - 1 = 0 by omega)]
      unfold deleteAndJoin
      dsimp only
      rw [set_eraseIdx]
      rw [if_pos (Or.inl (show pt.pieces.length - 1 = 0 by omega))]
      obtain ⟨a, ha⟩ := List.length_eq_one.mp hplen
      rw [ha]
      rfl
    · -- length-1 last piece, several pieces: the delete_and_join fault
      intro h1 hplen
      have hsplit : splitPieceIndexAndLenght pt i =
          some (pt.pieces.length - 1, last.length - 1) := by
        unfold splitPieceIndexAndLenght
        rw [hloop, hlast]
        dsimp only
        rw [if_neg (show ¬ last.length = 0 by omega)]
      unfold deleteChar
      rw [hsplit]
      dsimp only
      rw [hget]
      dsimp only
      rw [if_pos (show last.length - 1 = 0 by omega),
          if_pos (show last.length - 1 = 0 by omega)]
      unfold deleteAndJoin
      dsimp only
      rw [set_eraseIdx]
      have herase : (pt.pieces.eraseIdx (pt.pieces.length - 1)).length =
          pt.pieces.length - 1 := length_eraseIdx_lt (by omega)
      rw [if_neg (by rw [herase]; omega)]
      have hnone : (pt.pieces.eraseIdx (pt.pieces.length - 1)).get?
          (pt.pieces.length - 1) = none :=
        List.get?_eq_none.mpr (by rw [herase])
      rw [hnone]
      cases (pt.pieces.eraseIdx (pt.pieces.length - 1)).get?
          (pt.pieces.length - 1 - 1) <;> rfl
    · -- last piece longer than one: clamp-delete its final character
      intro h2
      have hsplit : splitPieceIndexAndLenght pt i =
          some (pt.pieces.length - 1, last.length - 1) := by
        unfold splitPieceIndexAndLenght
        rw [hloop, hlast]
        dsimp only
        rw [if_neg (show ¬ last.length = 0 by omega)]
      constructor
      · unfold deleteChar
        rw [hsplit]
        dsimp only
        rw [hget]
        dsimp only
        rw [if_neg (show ¬ last.length - 1 = 0 by omega), if_pos rfl]
      · intro heq
        have hs2 := get?_set_self pt.pieces (pt.pieces.length - 1)
          { buffer := last.buffer, start := last.start, length := last.length - 1 }
          (by omega)
        rw [heq, hget] at hs2
        rw [Option.some_inj] at hs2
        have hlen := congrArg Piece.length hs2
        dsimp only at hlen
        omega

/-- Claim C3 witness for the amended statement, at the table loaded from
`"ab"` (whose single last piece is `{ReadOnly, 0, 2}`), `s = "x"`,
`i = 5`. -/
theorem c3_amended_witness :
    (totalLength (fromStr ['a', 'b']) < 5 →
      PieceTable.insert (fromStr ['a', 'b']) ['x'] 5 = none) ∧
    ((fromStr ['a', 'b']).pieces = [] → deleteChar (fromStr ['a', 'b']) 5 = none) ∧
    ((fromStr ['a', 'b']).pieces.getLast? =
        some { buffer := BufChoice.readOnly, start := 0, length := 2 } →
      (({ buffer := BufChoice.readOnly, start := 0, length := 2 } : Piece).length = 0 →
        deleteChar (fromStr ['a', 'b']) 5 = none) ∧
      (({ buffer := BufChoice.readOnly, start := 0, length := 2 } : Piece).length = 1 →
        (fromStr ['a', 'b']).pieces.length = 1 →
        deleteChar (fromStr ['a', 'b']) 5 =
          some { read_buf := (fromStr ['a', 'b']).read_buf,
                 append_buf := (fromStr ['a', 'b']).append_buf, pieces := [] }) ∧
      (({ buffer := BufChoice.readOnly, start := 0, length := 2 } : Piece).length = 1 →
        1 < (fromStr ['a', 'b']).pieces.length →
        deleteChar (fromStr ['a', 'b']) 5 = none) ∧
      (2 ≤ ({ buffer := BufChoice.readOnly, start := 0, length := 2 } : Piece).length →
        deleteChar (fromStr ['a', 'b']) 5 =
          some { read_buf := (fromStr ['a', 'b']).read_buf,
                 append_buf := (fromStr ['a', 'b']).append_buf,
                 pieces := (fromStr ['a', 'b']).pieces.set
                   ((fromStr ['a', 'b']).pieces.length - 1)
                   { buffer :=
                       ({ buffer := BufChoice.readOnly, start := 0, length := 2 }
                         : Piece).buffer,
                     start :=
                       ({ buffer := BufChoice.readOnly, start := 0, length := 2 }
                         : Piece).start,
                     length :=
                       ({ buffer := BufChoice.readOnly, start := 0, length := 2 }
                         : Piece).length - 1 } } ∧
        (fromStr ['a', 'b']).pieces.set ((fromStr ['a', 'b']).pieces.length - 1)
          { buffer :=
              ({ buffer := BufChoice.readOnly, start := 0, length := 2 } : Piece).buffer,
            start :=
              ({ buffer := BufChoice.readOnly, start := 0, length := 2 } : Piece).start,
            length :=
              ({ buffer := BufChoice.readOnly, start := 0, length := 2 }
                : Piece).length - 1 } ≠
          (fromStr ['a', 'b']).pieces)) :=
  c3_amended (fromStr ['a', 'b']) ['x'] 5
    { buffer := BufChoice.readOnly, start := 0, length := 2 } (by decide)
